import Mathlib

/-!
# Verification of the snarkVM ledger core and response verifier

Shallow embedding of:
* `src/circuit/program/src/response/verify.rs` (`Response::verify`),
* `src/vm/compiler/src/ledger/mod.rs` (`Ledger`: `from_genesis`, `from_maps`,
  `add_to_memory_pool`, `check_next_block`, `add_next_block`, `to_state_path`).

Machine integers (`u32` heights, `u64` rounds) are modelled as `Nat`; the ledger
only ever increments them by one so no overflow wrapping is observable at the
sizes the theorems quantify over, and `i64` timestamps are modelled as `Int`.
Opaque cryptographic primitives (BHP hashes, Poseidon hash-to-scalar, group
scalar multiplication, the block-hash fingerprint) are taken as function
parameters: the code treats them as black boxes, so every theorem quantifies
over them.
-/

set_option autoImplicit false

namespace SnarkVM

/-! ## Circuit response verifier (`response/verify.rs`) -/

/-- A circuit value: either a record or a plaintext.  Records and plaintexts are
opaque to `Response::verify` (only their bit decompositions, commitments and
encryptions are used, all via external primitives), so both are modelled as
opaque handles. -/
inductive CircuitValue where
  | Record (r : Nat)
  | Plaintext (p : Nat)
deriving DecidableEq

/-- The `OutputID` variants of `response/verify.rs`:
`Constant(hash) | Public(hash) | Private(index, commitment) |
Record(index, commitment, nonce, checksum)`. -/
inductive OutputID where
  | Constant (h : Nat)
  | Public (h : Nat)
  | Private (index cm : Nat)
  | Record (index cm nonce checksum : Nat)
deriving DecidableEq

/-- The external cryptographic primitives used by `Response::verify`.
They are supplied by the `Aleo` environment (`A::hash_bhp1024`,
`A::hash_to_scalar_psd2`, `A::commit_bhp1024`, `A::g_scalar_multiply`
composed with `to_x_coordinate`, `Record::to_commitment`, `Record::encrypt`)
and are opaque to the verifier, so they are fields of a parameter record. -/
structure Prims where
  hash_bhp1024 : List Bool → Nat
  hash_to_scalar_psd2 : List Nat → Nat
  commit_bhp1024 : List Bool → Nat → Nat
  g_scalar_mul_x : Nat → Nat
  record_to_commitment : Nat → Nat → Nat
  record_encrypt : Nat → Nat → Nat
  record_bits : Nat → List Bool
  value_bits : CircuitValue → List Bool

/-- A response: the sequence of output IDs and the sequence of outputs. -/
structure Response where
  output_ids : List OutputID
  outputs : List CircuitValue
deriving DecidableEq

/-- One arm of the `match output_id` in `Response::verify`.  Returns `none`
when the circuit halts (`A::halt`, record ID paired with a plaintext output),
otherwise `some` of the boolean contribution of that pair. -/
def checkOutput (P : Prims) (tvk : Nat) : OutputID → CircuitValue → Option Bool
  | .Constant h, out => some (P.hash_bhp1024 (P.value_bits out) == h)
  | .Public h, out => some (P.hash_bhp1024 (P.value_bits out) == h)
  | .Private i cm, out =>
      some (P.commit_bhp1024 (P.value_bits out) (P.hash_to_scalar_psd2 [tvk, i]) == cm)
  | .Record i cm nonce checksum, out =>
      match out with
      | .Plaintext _ => none
      | .Record r =>
          let randomizer := P.hash_to_scalar_psd2 [tvk, i]
          some ((P.record_to_commitment r randomizer == cm)
            && (P.g_scalar_mul_x randomizer == nonce)
            && (P.hash_bhp1024 (P.record_bits (P.record_encrypt r randomizer)) == checksum))

/-- `Response::verify`: zip the output IDs with the outputs (`zip_eq` panics on
a length mismatch, modelled as `none`), check each pair, and fold the results
with `&` starting from `true`.  A halt in any pair aborts the whole
verification (`none`). -/
def Response.verify (P : Prims) (r : Response) (tvk : Nat) : Option Bool :=
  if r.output_ids.length = r.outputs.length then
    (List.zip r.output_ids r.outputs).foldl
      (fun acc pair => do
        let a ← acc
        let x ← checkOutput P tvk pair.1 pair.2
        pure (a && x))
      (some true)
  else none

/-! ## The key-value map (`Map` trait / `MemoryMap`)

Modelled from the spec: the map implementation is not part of the sampled
sources (only the `Map` trait use sites are).  Per spec section 4.1 the map is
an ordered, insertable key-to-value store, iterated in key order, where a
duplicate insert overwrites.  It is modelled as an association list kept
sorted by key by `insert`. -/

abbrev MemoryMap (V : Type) : Type := List (Nat × V)

/-- `Map::get`: the value stored at key `k`, if any. -/
def MemoryMap.get {V : Type} : MemoryMap V → Nat → Option V
  | [], _ => none
  | p :: t, k => if p.1 = k then some p.2 else MemoryMap.get t k

/-- `Map::contains_key`. -/
def MemoryMap.contains_key {V : Type} (m : MemoryMap V) (k : Nat) : Bool :=
  (MemoryMap.get m k).isSome

/-- `Map::keys`, in iteration (key) order. -/
def MemoryMap.keys {V : Type} (m : MemoryMap V) : List Nat :=
  m.map (fun p => p.1)

/-- `Map::values`, in iteration (key) order. -/
def MemoryMap.values {V : Type} (m : MemoryMap V) : List V :=
  m.map (fun p => p.2)

/-- `Map::insert`: sorted insertion; an existing binding of the same key is
overwritten. -/
def MemoryMap.insert {V : Type} : MemoryMap V → Nat → V → MemoryMap V
  | [], k, v => [(k, v)]
  | p :: t, k, v =>
      if k < p.1 then (k, v) :: p :: t
      else if k = p.1 then (k, v) :: t
      else p :: MemoryMap.insert t k v

/-- `keys().max()`. -/
def MemoryMap.keys_max {V : Type} : MemoryMap V → Option Nat
  | [] => none
  | p :: t =>
      match MemoryMap.keys_max t with
      | none => some p.1
      | some x => some (max p.1 x)

/-! ## Block and transaction data model (`ledger/mod.rs` and its submodules) -/

/-- A block header: the metadata `(network, round, height, coinbase_target,
proof_target, timestamp)` together with the two roots. -/
structure Header where
  previous_state_root : Nat
  transactions_root : Nat
  network : Nat
  round : Nat
  height : Nat
  coinbase_target : Nat
  proof_target : Nat
  timestamp : Int
deriving DecidableEq

/-- `Origin`: a claimed provenance of an input record. -/
inductive Origin where
  | Commitment (c : Nat)
  | StateRoot (r : Nat)
deriving DecidableEq

/-- A transition: its id, transition public key, and the commitments, serial
numbers, nonces and origins it carries. -/
structure Transition where
  id : Nat
  tpk : Nat
  commitments : List Nat
  serial_numbers : List Nat
  nonces : List Nat
  origins : List Origin
deriving DecidableEq

/-- A transaction: its id and its transitions. -/
structure Transaction where
  id : Nat
  transitions : List Transition
deriving DecidableEq

/-- `Transaction::transition_public_keys`. -/
def Transaction.transition_public_keys (t : Transaction) : List Nat :=
  t.transitions.map (fun tr => tr.tpk)

/-- `Transaction::serial_numbers`. -/
def Transaction.serial_numbers (t : Transaction) : List Nat :=
  t.transitions.flatMap (fun tr => tr.serial_numbers)

/-- `Transaction::commitments`. -/
def Transaction.commitments (t : Transaction) : List Nat :=
  t.transitions.flatMap (fun tr => tr.commitments)

/-- `Transaction::nonces`. -/
def Transaction.nonces (t : Transaction) : List Nat :=
  t.transitions.flatMap (fun tr => tr.nonces)

/-- `Transaction::origins`. -/
def Transaction.origins (t : Transaction) : List Origin :=
  t.transitions.flatMap (fun tr => tr.origins)

/-- A block: `(previous_hash, header, transactions, signature)`.  The block
hash is not stored: it is the external fingerprint of
`(previous_hash, header_root, signature)`, recomputed on reassembly, so it is
a function of these fields (see `Block.hash`). -/
structure Block where
  previous_hash : Nat
  header : Header
  transactions : List Transaction
  signature : Nat
deriving DecidableEq

/-- The external block-hash fingerprint over `(previous_hash, header,
signature)` (the header root is itself a function of the header, so the
composite is a function of the header). -/
abbrev BlockHashFn : Type := Nat → Header → Nat → Nat

/-- `Block::height` (stored in the header metadata). -/
def Block.height (b : Block) : Nat := b.header.height

/-- `Block::round` (stored in the header metadata). -/
def Block.round (b : Block) : Nat := b.header.round

/-- `Block::timestamp` (stored in the header metadata). -/
def Block.timestamp (b : Block) : Int := b.header.timestamp

/-- `Block::hash`, as recomputed from the block contents. -/
def Block.hash (E : BlockHashFn) (b : Block) : Nat :=
  E b.previous_hash b.header b.signature

/-- `Block::transaction_ids`. -/
def Block.transaction_ids (b : Block) : List Nat :=
  b.transactions.map (fun t => t.id)

/-- `Block::transition_public_keys`. -/
def Block.transition_public_keys (b : Block) : List Nat :=
  b.transactions.flatMap Transaction.transition_public_keys

/-- `Block::serial_numbers`. -/
def Block.serial_numbers (b : Block) : List Nat :=
  b.transactions.flatMap Transaction.serial_numbers

/-- `Block::commitments`. -/
def Block.commitments (b : Block) : List Nat :=
  b.transactions.flatMap Transaction.commitments

/-- `Block::nonces`. -/
def Block.nonces (b : Block) : List Nat :=
  b.transactions.flatMap Transaction.nonces

/-- `Block::origins`. -/
def Block.origins (b : Block) : List Origin :=
  b.transactions.flatMap Transaction.origins

/-- Modelled from the spec: the VM finalizer (`ledger/vm`, not among the
sampled sources).  Per spec section 6, `finalize` is idempotency-breaking:
finalizing the same transaction twice is an error (deployment collision or
double-spend), so the VM state is the list of finalized transaction ids. -/
structure VM where
  finalized : List Nat
deriving DecidableEq

/-- `VM::finalize`: refuses a transaction whose id was already finalized. -/
def VM.finalize (vm : VM) (t : Transaction) : Except String VM :=
  if vm.finalized.contains t.id then Except.error "the transaction was already finalized"
  else Except.ok ⟨vm.finalized ++ [t.id]⟩

/-- Finalize a list of transactions in order, stopping at the first error. -/
def finalizeList (vm : VM) : List Transaction → Except String VM
  | [] => Except.ok vm
  | t :: rest =>
      match vm.finalize t with
      | Except.ok vm2 => finalizeList vm2 rest
      | Except.error e => Except.error e

/-! ## The ledger -/

/-- The ledger state of `ledger/mod.rs`.  The block tree is the depth-32 BHP
Merkle accumulator; the tree construction is external, so the tree is
modelled by its leaf sequence (leaves are the bit decompositions of block
hashes; `to_bits_le` is injective, so leaves are modelled by the hashes
themselves).  Any fact about the leaf sequence transfers to the root for
every root function. -/
structure Ledger where
  current_hash : Nat
  current_height : Nat
  current_round : Nat
  block_tree : List Nat
  previous_hashes : MemoryMap Nat
  headers : MemoryMap Header
  transactions : MemoryMap (List Transaction)
  signatures : MemoryMap Nat
  memory_pool : List (Nat × Transaction)
  vm : VM
deriving DecidableEq

/-- The ledger built by `new()`/`from_genesis` before the genesis block is
added: default hash, height 0, round 0, empty tree, maps, pool and VM. -/
def emptyLedger : Ledger :=
  { current_hash := 0
    current_height := 0
    current_round := 0
    block_tree := []
    previous_hashes := []
    headers := []
    transactions := []
    signatures := []
    memory_pool := []
    vm := ⟨[]⟩ }

/-- `self.transactions()` (iterators module): all committed transactions, in
block order.  Modelled from the spec: the iterators module is not among the
sampled sources; per spec it chains the `Transactions` values of the
height-keyed map. -/
def Ledger.committed_transactions (l : Ledger) : List Transaction :=
  (MemoryMap.values l.transactions).flatten

/-- Modelled from the spec: `contains_block_hash` (contains module, not among
the sampled sources) is membership in the committed block hashes, which are
exactly the accumulator leaves (spec invariant 3). -/
def Ledger.contains_block_hash (l : Ledger) (h : Nat) : Bool :=
  l.block_tree.contains h

/-- Modelled from the spec: `contains_height` is membership of the height in
the committed height-keyed maps. -/
def Ledger.contains_height (l : Ledger) (h : Nat) : Bool :=
  MemoryMap.contains_key l.headers h

/-- Modelled from the spec: `contains_transaction_id` over committed blocks. -/
def Ledger.contains_transaction_id (l : Ledger) (x : Nat) : Bool :=
  l.committed_transactions.any (fun t => t.id == x)

/-- Modelled from the spec: `contains_transition_public_key` over committed
blocks. -/
def Ledger.contains_transition_public_key (l : Ledger) (x : Nat) : Bool :=
  l.committed_transactions.any (fun t => (Transaction.transition_public_keys t).contains x)

/-- Modelled from the spec: `contains_serial_number` over committed blocks. -/
def Ledger.contains_serial_number (l : Ledger) (x : Nat) : Bool :=
  l.committed_transactions.any (fun t => (Transaction.serial_numbers t).contains x)

/-- Modelled from the spec: `contains_commitment` over committed blocks. -/
def Ledger.contains_commitment (l : Ledger) (x : Nat) : Bool :=
  l.committed_transactions.any (fun t => (Transaction.commitments t).contains x)

/-- Modelled from the spec: `contains_nonce` over committed blocks. -/
def Ledger.contains_nonce (l : Ledger) (x : Nat) : Bool :=
  l.committed_transactions.any (fun t => (Transaction.nonces t).contains x)

/-- Modelled from the spec: `get_block` (get module, not among the sampled
sources) reassembles the block at a height from the four height-keyed maps;
it fails if any map misses the height. -/
def Ledger.get_block (l : Ledger) (h : Nat) : Option Block :=
  match MemoryMap.get l.previous_hashes h, MemoryMap.get l.headers h,
        MemoryMap.get l.transactions h, MemoryMap.get l.signatures h with
  | some p, some hd, some ts, some s => some ⟨p, hd, ts, s⟩
  | _, _, _, _ => none

/-- `latest_block`: `get_block(latest_height)`. -/
def Ledger.latest_block (l : Ledger) : Option Block :=
  l.get_block l.current_height

/-- A `bail!`-style guard: succeed exactly when the condition holds. -/
def guardE (c : Prop) [Decidable c] (msg : String) : Except String Unit :=
  if c then Except.ok () else Except.error msg

/-- A `for` loop that bails with `msg` at the first element satisfying
`bad`. -/
def ensureNone {A : Type} : List A → (A → Bool) → String → Except String Unit
  | [], _, _ => Except.ok ()
  | x :: t, bad, msg =>
      if bad x then Except.error msg else ensureNone t bad msg

/-- The timestamp check of `check_next_block`: for a block of positive height,
fetch the latest block (propagating its error) and require a strictly larger
timestamp. -/
def Ledger.check_timestamp (l : Ledger) (b : Block) : Except String Unit :=
  if 0 < Block.height b then
    match l.latest_block with
    | none => Except.error "the latest block is missing"
    | some lb =>
        guardE (lb.header.timestamp < Block.timestamp b)
          "The given block timestamp is before the current timestamp"
  else Except.ok ()

/-- The origin check of `check_next_block`: a `Commitment` origin must already
be a committed commitment; a `StateRoot` origin is unsupported. -/
def Ledger.bad_origin (l : Ledger) : Origin → Bool
  | .Commitment c => ! l.contains_commitment c
  | .StateRoot _ => true

/-- `check_next_block`: the pure validation pipeline, with the checks in
source order. -/
def check_next_block (E : BlockHashFn) (v : Block → VM → Bool) (l : Ledger) (b : Block) :
    Except String Unit := do
  guardE (l.current_hash = b.previous_hash)
    "The given block has an incorrect previous block hash"
  guardE (l.contains_block_hash (Block.hash E b) = false)
    "Block hash already exists in the ledger"
  guardE (¬ (0 < l.current_height ∧ l.current_height + 1 ≠ Block.height b))
    "The given block has an incorrect block height"
  guardE (l.contains_height (Block.height b) = false)
    "Block height already exists in the ledger"
  guardE (¬ (0 < l.current_round ∧ l.current_round + 1 ≠ Block.round b))
    "The given block has an incorrect round number"
  l.check_timestamp b
  ensureNone (Block.transaction_ids b) l.contains_transaction_id
    "Transaction already exists in the ledger"
  ensureNone (Block.transition_public_keys b) l.contains_transition_public_key
    "Transition public key already exists in the ledger"
  ensureNone (Block.origins b) l.bad_origin
    "The given transaction references an invalid origin"
  ensureNone (Block.serial_numbers b) l.contains_serial_number
    "Serial number already exists in the ledger"
  ensureNone (Block.commitments b) l.contains_commitment
    "Commitment already exists in the ledger"
  ensureNone (Block.nonces b) l.contains_nonce
    "Nonce already exists in the ledger"
  guardE (v b l.vm = true) "The given block is invalid"

/-- The staged-clone body of `add_next_block`: pre-check, then stage every
update (tip fields, tree append, the four map inserts, VM finalization of
every block transaction in order, memory-pool removal) and return the staged
ledger; any failure returns the error instead. -/
def add_next_block_inner (E : BlockHashFn) (v : Block → VM → Bool) (l : Ledger) (b : Block) :
    Except String Ledger := do
  check_next_block E v l b
  let vm ← finalizeList l.vm b.transactions
  Except.ok
    { current_hash := Block.hash E b
      current_height := Block.height b
      current_round := Block.round b
      block_tree := l.block_tree ++ [Block.hash E b]
      previous_hashes := MemoryMap.insert l.previous_hashes (Block.height b) b.previous_hash
      headers := MemoryMap.insert l.headers (Block.height b) b.header
      transactions := MemoryMap.insert l.transactions (Block.height b) b.transactions
      signatures := MemoryMap.insert l.signatures (Block.height b) b.signature
      memory_pool := l.memory_pool.filter (fun p => ! (Block.transaction_ids b).contains p.1)
      vm := vm }

/-- `add_next_block` as the caller observes it through `&mut self`: the staged
ledger is swapped in only on success (`*self = ...` at the end of the atomic
section); on any error `self` is left as it was. -/
def add_next_block (E : BlockHashFn) (v : Block → VM → Bool) (l : Ledger) (b : Block) :
    Ledger × Except String Unit :=
  match add_next_block_inner E v l b with
  | Except.ok l2 => (l2, Except.ok ())
  | Except.error e => (l, Except.error e)

/-- `from_genesis`: build the empty ledger, then add the genesis block. -/
def from_genesis (E : BlockHashFn) (v : Block → VM → Bool) (g : Block) : Except String Ledger :=
  add_next_block_inner E v emptyLedger g

/-- The ledger holding the four given maps and otherwise-empty state, as
built at the start of `from_maps`. -/
def replayBase (pm : MemoryMap Nat) (hm : MemoryMap Header)
    (tm : MemoryMap (List Transaction)) (sm : MemoryMap Nat) : Ledger :=
  { emptyLedger with previous_hashes := pm, headers := hm, transactions := tm, signatures := sm }

/-- The tail of `from_maps` shared by both branches: fetch the block at
`latest_height`, set the tip fields from it, rebuild the block tree from the
previous-hash values (skipping the first) plus the current hash, replay every
committed transaction through a fresh VM, and safety-check the existence of
every block up to the tip. -/
def from_maps_replay (E : BlockHashFn) (pm : MemoryMap Nat) (hm : MemoryMap Header)
    (tm : MemoryMap (List Transaction)) (sm : MemoryMap Nat) (latest_height : Nat) :
    Except String Ledger := do
  let l1 : Ledger := replayBase pm hm tm sm
  let b ← match l1.get_block latest_height with
          | some b => Except.ok b
          | none => Except.error "the requested block is missing"
  let l2 := { l1 with
    current_hash := Block.hash E b
    current_height := Block.height b
    current_round := Block.round b }
  let l3 := { l2 with
    block_tree := (MemoryMap.values l2.previous_hashes).drop 1 ++ [l2.current_hash] }
  let vm ← finalizeList l3.vm (MemoryMap.values l3.transactions).flatten
  let l4 := { l3 with vm := vm }
  if (List.range (l4.current_height + 1)).all (fun h => (l4.get_block h).isSome)
  then Except.ok l4
  else Except.error "the ledger is missing a block"

/-- `from_maps`: if `previous_hashes.keys().max()` is `None`, bootstrap by
inserting the genesis block into the four maps and replay from the genesis
height; otherwise replay from the maximum key. -/
def from_maps (E : BlockHashFn) (g : Block) (pm : MemoryMap Nat) (hm : MemoryMap Header)
    (tm : MemoryMap (List Transaction)) (sm : MemoryMap Nat) : Except String Ledger :=
  match MemoryMap.keys_max pm with
  | some h => from_maps_replay E pm hm tm sm h
  | none =>
      from_maps_replay E
        (MemoryMap.insert pm (Block.height g) g.previous_hash)
        (MemoryMap.insert hm (Block.height g) g.header)
        (MemoryMap.insert tm (Block.height g) g.transactions)
        (MemoryMap.insert sm (Block.height g) g.signature)
        (Block.height g)

/-- `add_to_memory_pool`: reject a transaction whose id is already pooled or
any of whose transition public keys, serial numbers, commitments or nonces is
already committed; otherwise append it to the pool keyed by its id. -/
def add_to_memory_pool (l : Ledger) (t : Transaction) : Except String Ledger := do
  guardE ((l.memory_pool.any (fun p => p.1 == t.id)) = false)
    "Transaction already exists in the memory pool"
  ensureNone (Transaction.transition_public_keys t) l.contains_transition_public_key
    "Transition public key already exists in the ledger"
  ensureNone (Transaction.serial_numbers t) l.contains_serial_number
    "Serial number already exists in the ledger"
  ensureNone (Transaction.commitments t) l.contains_commitment
    "Commitment already exists in the ledger"
  ensureNone (Transaction.nonces t) l.contains_nonce
    "Nonce already exists in the ledger"
  Except.ok { l with memory_pool := l.memory_pool ++ [(t.id, t)] }

/-! ## State paths (`to_state_path`) -/

/-- The first search of `to_state_path`: all committed transactions whose
commitments contain `c`. -/
def state_path_tx_matches (l : Ledger) (c : Nat) : List Transaction :=
  l.committed_transactions.filter (fun t => (Transaction.commitments t).contains c)

/-- The second search of `to_state_path`: all committed heights whose
transaction-id list contains the id of `t`. -/
def state_path_heights (l : Ledger) (t : Transaction) : List Nat :=
  l.transactions.filterMap
    (fun p => if (p.2.map Transaction.id).contains t.id then some p.1 else none)

/-- The third search of `to_state_path`: all transitions of `t` whose
commitments contain `c`. -/
def state_path_transitions (t : Transaction) (c : Nat) : List Transition :=
  t.transitions.filter (fun tr => tr.commitments.contains c)

/-- The data determined by `to_state_path` before the Merkle path
construction. -/
structure StatePathData where
  block_height : Nat
  transaction_id : Nat
  transition_id : Nat
  transaction_index : Nat
deriving DecidableEq

/-- `Iterator::position`: the index of the first element satisfying the
predicate. -/
def position {A : Type} (p : A → Bool) : List A → Option Nat
  | [] => none
  | x :: t => if p x then some 0 else (position p t).map (fun i => i + 1)

/-- The error message standing for the `.unwrap()` panic on the transaction
index search of `to_state_path`. -/
def unwrapPanicMsg : String := "panic on unwrap of the transaction index"

/-- `to_state_path`: the three uniqueness searches, the header fetch, and the
transaction index lookup (whose failure in the source is an `unwrap` panic,
modelled as the distinguished error `unwrapPanicMsg`).  The Merkle leaf and
path constructions that follow are external primitives (the state-path module
is not among the sampled sources) and do not affect which inputs error, so the
function returns the data that determines them. -/
def to_state_path (l : Ledger) (c : Nat) : Except String StatePathData := do
  let transaction ← match state_path_tx_matches l c with
    | [t] => Except.ok t
    | _ => Except.error "Multiple transactions associated with commitment"
  let block_height ← match state_path_heights l transaction with
    | [h] => Except.ok h
    | _ => Except.error "Multiple block heights associated with transaction id"
  let _block_header ← match MemoryMap.get l.headers block_height with
    | some hd => Except.ok hd
    | none => Except.error "the block header is missing"
  let transition ← match state_path_transitions transaction c with
    | [tr] => Except.ok tr
    | _ => Except.error "Multiple transitions associated with commitment"
  let txs ← match MemoryMap.get l.transactions block_height with
    | some ts => Except.ok ts
    | none => Except.error "the block transactions are missing"
  let transaction_index ← match position (fun t => t.id == transaction.id) txs with
    | some i => Except.ok i
    | none => Except.error unwrapPanicMsg
  Except.ok ⟨block_height, transaction.id, transition.id, transaction_index⟩

/-! ## Reachability -/

/-- The ledgers reachable from a genesis ledger by successful
`add_next_block` calls. -/
inductive Reachable (E : BlockHashFn) (v : Block → VM → Bool) (g : Block) : Ledger → Prop where
  | genesis (l : Ledger) : from_genesis E v g = Except.ok l → Reachable E v g l
  | step (l : Ledger) (b : Block) (l2 : Ledger) : Reachable E v g l →
      add_next_block_inner E v l b = Except.ok l2 → Reachable E v g l2

/-! ## Concrete instances

Concrete primitives and blocks used to instantiate the theorems and to
exhibit counterexamples.  The block-hash fingerprint is instantiated by the
signature projection (signatures below are chosen pairwise distinct, so the
fingerprint is collision-free on the blocks involved), and `Block::verify`
by the constant `true`. -/

/-- A concrete block-hash fingerprint: project the signature. -/
def exF : BlockHashFn := fun _ _ s => s

/-- A concrete `Block::verify`: accept every block. -/
def exV : Block → VM → Bool := fun _ _ => true

/-- A header with the given round, height and timestamp. -/
def exHeader (round height : Nat) (ts : Int) : Header :=
  ⟨0, 0, 0, round, height, 0, 0, ts⟩

/-- A genesis block of height 0, round 0, timestamp 0, no transactions. -/
def exGenesis : Block := ⟨0, exHeader 0 0 0, [], 1⟩

/-- A genesis block of height 0, round 1, timestamp 0, no transactions. -/
def exGenesisR : Block := ⟨0, exHeader 1 0 0, [], 1⟩

/-- A next block of height 1 and round 0 on top of `exGenesis`. -/
def exB1 : Block := ⟨1, exHeader 0 1 100, [], 2⟩

/-- A next block of height 2 (a height gap) on top of `exGenesis`. -/
def exBgap : Block := ⟨1, exHeader 0 2 100, [], 2⟩

/-- A next block of height 1 and round 2 on top of `exGenesisR`. -/
def exB1R : Block := ⟨1, exHeader 2 1 100, [], 2⟩

/-- A block whose previous hash does not match the empty ledger. -/
def exBbad : Block := ⟨5, exHeader 0 1 100, [], 3⟩

/-- Extract the ledger from a successful result. -/
def okOr (e : Except String Ledger) : Ledger :=
  match e with
  | Except.ok l => l
  | Except.error _ => emptyLedger

/-- The ledger after adding `exGenesis`. -/
def exL0 : Ledger := okOr (from_genesis exF exV exGenesis)

/-- The ledger after adding `exGenesis` then `exB1`. -/
def exL1 : Ledger := okOr (add_next_block_inner exF exV exL0 exB1)

/-- The ledger after adding `exGenesis` then the gapped block `exBgap`. -/
def exLgap : Ledger := okOr (add_next_block_inner exF exV exL0 exBgap)

/-- The ledger after adding `exGenesisR`. -/
def exL0R : Ledger := okOr (from_genesis exF exV exGenesisR)

/-- The ledger after adding `exGenesisR` then `exB1R`. -/
def exL1R : Ledger := okOr (add_next_block_inner exF exV exL0R exB1R)

/-- A transaction with id 7 and no transitions. -/
def exTx : Transaction := ⟨7, []⟩

/-- A ledger whose memory pool already holds `exTx`. -/
def exLdup : Ledger := { emptyLedger with memory_pool := [(7, exTx)] }

/-- Concrete circuit primitives: every hash, commitment and projection is the
constant 0 and every bit decomposition is empty. -/
def exP : Prims :=
  ⟨fun _ => 0, fun _ => 0, fun _ _ => 0, fun _ => 0, fun _ _ => 0, fun _ _ => 0,
   fun _ => [], fun _ => []⟩

/-! ## Theorems: the circuit response verifier -/

/-- **C3.** For every `tvk` and every pair of a `Record(i, cm, nonce, chk)`
output ID with an output, the randomizer is `HS(tvk, i)` and the pair
contributes `true` to the conjunction iff the record commitment under the
randomizer equals `cm`, the x-coordinate of `g` times the randomizer equals
`nonce`, and the BHP hash of the bits of the encrypted record equals `chk`;
a non-record (plaintext) output halts fatally (`none`) instead of returning
`false`. -/
theorem response_verify_record_case (P : Prims) (tvk i cm nonce chk : Nat) :
    (∀ r, checkOutput P tvk (OutputID.Record i cm nonce chk) (CircuitValue.Record r) = some true ↔
        (P.record_to_commitment r (P.hash_to_scalar_psd2 [tvk, i]) = cm ∧
         P.g_scalar_mul_x (P.hash_to_scalar_psd2 [tvk, i]) = nonce ∧
         P.hash_bhp1024 (P.record_bits (P.record_encrypt r (P.hash_to_scalar_psd2 [tvk, i]))) = chk)) ∧
    (∀ p, checkOutput P tvk (OutputID.Record i cm nonce chk) (CircuitValue.Plaintext p) = none) := by
  constructor
  · intro r
    simp [checkOutput, Bool.and_eq_true, and_assoc]
  · intro p
    rfl

/-- Witness for `response_verify_record_case` at the concrete primitives. -/
theorem response_verify_record_case_app :
    checkOutput exP 0 (OutputID.Record 0 0 0 0) (CircuitValue.Record 0) = some true ∧
    checkOutput exP 0 (OutputID.Record 0 0 0 0) (CircuitValue.Plaintext 0) = none :=
  ⟨((response_verify_record_case exP 0 0 0 0 0).1 0).mpr ⟨rfl, rfl, rfl⟩,
   (response_verify_record_case exP 0 0 0 0 0).2 0⟩

/-- **C8.** For every `tvk`, expected hash `h` and output, the `Constant(h)`
and `Public(h)` output IDs verify identically: both hash the output bits with
BHP-1024 and compare against `h`; consequently `Response::verify` gives the
same result on the two singleton responses. -/
theorem constant_public_same (P : Prims) (tvk h : Nat) (out : CircuitValue) :
    checkOutput P tvk (OutputID.Constant h) out = checkOutput P tvk (OutputID.Public h) out ∧
    checkOutput P tvk (OutputID.Constant h) out = some (P.hash_bhp1024 (P.value_bits out) == h) ∧
    Response.verify P ⟨[OutputID.Constant h], [out]⟩ tvk =
      Response.verify P ⟨[OutputID.Public h], [out]⟩ tvk :=
  ⟨rfl, rfl, rfl⟩

/-- **C9.** For every `tvk`, verifying the response with no output IDs and no
outputs yields `true` (the conjunction over zero pairs), and the `zip_eq`
pairing aborts whenever the two sequences have different lengths. -/
theorem verify_empty_true (P : Prims) (tvk : Nat) :
    Response.verify P ⟨[], []⟩ tvk = some true ∧
    ∀ ids outs, ids.length ≠ outs.length →
      Response.verify P ⟨ids, outs⟩ tvk = none := by
  constructor
  · rfl
  · intro ids outs hne
    simp [Response.verify, hne]

/-- Witness for `verify_empty_true` at concrete inputs. -/
theorem verify_empty_true_app :
    Response.verify exP ⟨[], []⟩ 0 = some true ∧
    ([] : List OutputID).length ≠ [CircuitValue.Plaintext 0].length ∧
    Response.verify exP ⟨[], [CircuitValue.Plaintext 0]⟩ 0 = none :=
  ⟨(verify_empty_true exP 0).1, by decide,
   (verify_empty_true exP 0).2 [] [CircuitValue.Plaintext 0] (by decide)⟩

/-! ## Machinery: `Except` sequencing, guards, loops -/

theorem seq_ok_iff {A : Type} {a : Except String Unit} {f : Unit → Except String A} {x : A} :
    (a >>= f) = Except.ok x ↔ a = Except.ok () ∧ f () = Except.ok x := by
  cases a with
  | error e => simp [Bind.bind, Except.bind]
  | ok u => cases u; simp [Bind.bind, Except.bind]

theorem bind_ok_iff {A B : Type} {a : Except String A} {f : A → Except String B} {y : B} :
    (a >>= f) = Except.ok y ↔ ∃ x, a = Except.ok x ∧ f x = Except.ok y := by
  cases a with
  | error e => simp [Bind.bind, Except.bind]
  | ok u => simp [Bind.bind, Except.bind]

theorem guardE_ok {c : Prop} [Decidable c] {msg : String} :
    guardE c msg = Except.ok () ↔ c := by
  by_cases h : c <;> simp [guardE, h]

theorem ensureNone_ok {A : Type} {xs : List A} {bad : A → Bool} {msg : String} :
    ensureNone xs bad msg = Except.ok () ↔ ∀ x ∈ xs, bad x = false := by
  induction xs with
  | nil => simp [ensureNone]
  | cons x t ih =>
      by_cases h : bad x <;> simp [ensureNone, h, ih]

theorem check_timestamp_ok {l : Ledger} {b : Block} :
    l.check_timestamp b = Except.ok () ↔
      (0 < Block.height b →
        ∃ lb, l.latest_block = some lb ∧ lb.header.timestamp < Block.timestamp b) := by
  by_cases h : 0 < Block.height b
  · cases hlb : l.latest_block with
    | none => simp [Ledger.check_timestamp, h, hlb]
    | some lb => simp [Ledger.check_timestamp, h, hlb, guardE_ok]
  · simp [Ledger.check_timestamp, h]

theorem finalizeList_ok_append {vm vm2 : VM} {ts : List Transaction} :
    finalizeList vm ts = Except.ok vm2 →
    vm2.finalized = vm.finalized ++ ts.map Transaction.id := by
  induction ts generalizing vm with
  | nil =>
      intro h
      cases h
      simp
  | cons t rest ih =>
      intro h
      by_cases hc : vm.finalized.contains t.id
      · have hmem : t.id ∈ vm.finalized := by simpa using hc
        simp [finalizeList, VM.finalize, hmem] at h
      · simp only [finalizeList, VM.finalize, hc, Bool.false_eq_true,
          not_false_eq_true, if_false] at h
        have := ih h
        simpa using this

theorem finalizeList_ok_nodup {vm vm2 : VM} {ts : List Transaction} :
    vm.finalized.Nodup → finalizeList vm ts = Except.ok vm2 → vm2.finalized.Nodup := by
  induction ts generalizing vm with
  | nil =>
      intro hnd h
      cases h
      exact hnd
  | cons t rest ih =>
      intro hnd h
      by_cases hc : vm.finalized.contains t.id
      · have hmem : t.id ∈ vm.finalized := by simpa using hc
        simp [finalizeList, VM.finalize, hmem] at h
      · simp only [finalizeList, VM.finalize, hc, Bool.false_eq_true, not_false_eq_true,
          if_false] at h
        refine ih ?_ h
        have hnotmem : t.id ∉ vm.finalized := by
          simpa using hc
        simpa [List.nodup_append] using ⟨hnd, hnotmem⟩

theorem finalizeList_of_nodup {vm : VM} {ts : List Transaction} :
    (vm.finalized ++ ts.map Transaction.id).Nodup →
    finalizeList vm ts = Except.ok ⟨vm.finalized ++ ts.map Transaction.id⟩ := by
  induction ts generalizing vm with
  | nil =>
      intro _
      simp [finalizeList]
  | cons t rest ih =>
      intro hnd
      have hnotmem : t.id ∉ vm.finalized := by
        intro hmem
        rcases List.nodup_append.mp hnd with ⟨_, _, hdisj⟩
        exact hdisj hmem (by simp)
      have hc : vm.finalized.contains t.id = false := by
        simpa using hnotmem
      have hstep : (VM.mk (vm.finalized ++ [t.id])).finalized ++ rest.map Transaction.id
          = vm.finalized ++ (t :: rest).map Transaction.id := by
        simp
      simp only [finalizeList, VM.finalize, hc, Bool.false_eq_true, not_false_eq_true,
        if_false]
      have := @ih ⟨vm.finalized ++ [t.id]⟩ (by simpa using hnd)
      rw [this]
      simp

/-! ## Machinery: map lemmas -/

theorem MemoryMap.get_mem {V : Type} {m : MemoryMap V} {k : Nat} {v : V} :
    MemoryMap.get m k = some v → (k, v) ∈ m := by
  induction m with
  | nil => intro h; simp [MemoryMap.get] at h
  | cons p t ih =>
      intro h
      by_cases hk : p.1 = k
      · simp [MemoryMap.get, hk] at h
        subst hk
        subst h
        simp
      · simp [MemoryMap.get, hk] at h
        exact List.mem_cons_of_mem _ (ih h)

theorem MemoryMap.get_isSome_iff {V : Type} {m : MemoryMap V} {k : Nat} :
    (MemoryMap.get m k).isSome = true ↔ k ∈ MemoryMap.keys m := by
  induction m with
  | nil => simp [MemoryMap.get, MemoryMap.keys]
  | cons p t ih =>
      by_cases hk : p.1 = k
      · simp [MemoryMap.get, MemoryMap.keys, hk]
      · simp [MemoryMap.get, MemoryMap.keys, hk, ih, Ne.symm hk]

theorem MemoryMap.contains_key_iff {V : Type} {m : MemoryMap V} {k : Nat} :
    MemoryMap.contains_key m k = true ↔ k ∈ MemoryMap.keys m := by
  simpa [MemoryMap.contains_key] using @MemoryMap.get_isSome_iff V m k

theorem MemoryMap.get_of_mem_nodup {V : Type} {m : MemoryMap V} {k : Nat} {v : V} :
    (MemoryMap.keys m).Nodup → (k, v) ∈ m → MemoryMap.get m k = some v := by
  induction m with
  | nil => intro _ h; simp at h
  | cons p t ih =>
      intro hnd hmem
      have hnd2 : (p.1 :: MemoryMap.keys t).Nodup := hnd
      rcases List.nodup_cons.mp hnd2 with ⟨hpk, htk⟩
      rcases List.mem_cons.mp hmem with heq | htail
      · subst heq
        simp [MemoryMap.get]
      · have hkmem : k ∈ MemoryMap.keys t := List.mem_map.mpr ⟨(k, v), htail, rfl⟩
        have hk : p.1 ≠ k := fun heq => hpk (heq ▸ hkmem)
        simp [MemoryMap.get, hk]
        exact ih htk htail

theorem MemoryMap.insert_append {V : Type} {m : MemoryMap V} {k : Nat} {v : V} :
    (∀ p ∈ m, p.1 < k) → MemoryMap.insert m k v = m ++ [(k, v)] := by
  induction m with
  | nil => intro _; rfl
  | cons p t ih =>
      intro hlt
      have hp : p.1 < k := hlt p (by simp)
      have h1 : ¬ k < p.1 := by omega
      have h2 : ¬ k = p.1 := by omega
      simp [MemoryMap.insert, h1, h2]
      exact ih (fun q hq => hlt q (by simp [hq]))

theorem MemoryMap.get_append_right {V : Type} {m : MemoryMap V} {k : Nat} {v : V} :
    (∀ p ∈ m, p.1 ≠ k) → MemoryMap.get (m ++ [(k, v)]) k = some v := by
  induction m with
  | nil => intro _; simp [MemoryMap.get]
  | cons p t ih =>
      intro hne
      have hp : p.1 ≠ k := hne p (by simp)
      simp only [List.cons_append, MemoryMap.get, hp, if_false]
      exact ih (fun q hq => hne q (by simp [hq]))

theorem MemoryMap.get_append_left {V : Type} {m l : MemoryMap V} {k : Nat} {v : V} :
    MemoryMap.get m k = some v → MemoryMap.get (m ++ l) k = some v := by
  induction m with
  | nil => intro h; simp [MemoryMap.get] at h
  | cons p t ih =>
      intro h
      by_cases hk : p.1 = k
      · simp [MemoryMap.get, hk] at h ⊢
        exact h
      · simp [MemoryMap.get, hk] at h ⊢
        exact ih h

theorem MemoryMap.keys_max_append {V : Type} {m : MemoryMap V} {k : Nat} {v : V} :
    (∀ p ∈ m, p.1 < k) → MemoryMap.keys_max (m ++ [(k, v)]) = some k := by
  induction m with
  | nil => intro _; rfl
  | cons p t ih =>
      intro hlt
      have hp : p.1 < k := hlt p (by simp)
      have ht := ih (fun q hq => hlt q (by simp [hq]))
      simp only [List.cons_append, MemoryMap.keys_max, List.append_eq]
      rw [ht]
      simp [Nat.max_eq_right (Nat.le_of_lt hp)]

/-! ## Machinery: pairwise membership -/

theorem pairwise_mem_or {A : Type} {R : A → A → Prop} {xs : List A} (hp : List.Pairwise R xs)
    {a b : A} (ha : a ∈ xs) (hb : b ∈ xs) (hne : a ≠ b) : R a b ∨ R b a := by
  induction xs with
  | nil => simp at ha
  | cons x t ih =>
      rcases List.pairwise_cons.mp hp with ⟨hx, ht⟩
      rcases List.mem_cons.mp ha with haeq | hat
      · rcases List.mem_cons.mp hb with hbeq | hbt
        · exact absurd (haeq.trans hbeq.symm) hne
        · exact Or.inl (haeq ▸ hx b hbt)
      · rcases List.mem_cons.mp hb with hbeq | hbt
        · exact Or.inr (hbeq ▸ hx a hat)
        · exact ih ht hat hbt

/-! ## Machinery: success characterizations -/

/-- The conjunction of conditions equivalent to `check_next_block`
succeeding. -/
def checkConds (E : BlockHashFn) (v : Block → VM → Bool) (l : Ledger) (b : Block) : Prop :=
  l.current_hash = b.previous_hash ∧
  l.contains_block_hash (Block.hash E b) = false ∧
  ¬ (0 < l.current_height ∧ l.current_height + 1 ≠ Block.height b) ∧
  l.contains_height (Block.height b) = false ∧
  ¬ (0 < l.current_round ∧ l.current_round + 1 ≠ Block.round b) ∧
  (0 < Block.height b →
    ∃ lb, l.latest_block = some lb ∧ lb.header.timestamp < Block.timestamp b) ∧
  (∀ x ∈ Block.transaction_ids b, l.contains_transaction_id x = false) ∧
  (∀ x ∈ Block.transition_public_keys b, l.contains_transition_public_key x = false) ∧
  (∀ x ∈ Block.origins b, l.bad_origin x = false) ∧
  (∀ x ∈ Block.serial_numbers b, l.contains_serial_number x = false) ∧
  (∀ x ∈ Block.commitments b, l.contains_commitment x = false) ∧
  (∀ x ∈ Block.nonces b, l.contains_nonce x = false) ∧
  v b l.vm = true

theorem check_next_block_ok_iff {E : BlockHashFn} {v : Block → VM → Bool}
    {l : Ledger} {b : Block} :
    check_next_block E v l b = Except.ok () ↔ checkConds E v l b := by
  simp only [check_next_block, checkConds, seq_ok_iff, guardE_ok, ensureNone_ok,
    check_timestamp_ok]

/-- The staged ledger that `add_next_block` swaps in on success. -/
def stagedLedger (E : BlockHashFn) (l : Ledger) (b : Block) (vm : VM) : Ledger :=
  { current_hash := Block.hash E b
    current_height := Block.height b
    current_round := Block.round b
    block_tree := l.block_tree ++ [Block.hash E b]
    previous_hashes := MemoryMap.insert l.previous_hashes (Block.height b) b.previous_hash
    headers := MemoryMap.insert l.headers (Block.height b) b.header
    transactions := MemoryMap.insert l.transactions (Block.height b) b.transactions
    signatures := MemoryMap.insert l.signatures (Block.height b) b.signature
    memory_pool := l.memory_pool.filter (fun p => ! (Block.transaction_ids b).contains p.1)
    vm := vm }

theorem add_next_block_inner_ok_iff {E : BlockHashFn} {v : Block → VM → Bool}
    {l : Ledger} {b : Block} {l2 : Ledger} :
    add_next_block_inner E v l b = Except.ok l2 ↔
      (checkConds E v l b ∧
       ∃ vm, finalizeList l.vm b.transactions = Except.ok vm ∧ l2 = stagedLedger E l b vm) := by
  constructor
  · intro h
    simp only [add_next_block_inner, bind_ok_iff] at h
    rcases h with ⟨u, hchk, vm, hvm, hl2⟩
    cases u
    refine ⟨check_next_block_ok_iff.mp hchk, vm, hvm, ?_⟩
    cases hl2
    rfl
  · rintro ⟨hchk, vm, hvm, rfl⟩
    simp only [add_next_block_inner, bind_ok_iff]
    exact ⟨(), check_next_block_ok_iff.mpr hchk, vm, hvm, rfl⟩

theorem get_block_eq_some {l : Ledger} {h : Nat} {b : Block} :
    l.get_block h = some b ↔
      (MemoryMap.get l.previous_hashes h = some b.previous_hash ∧
       MemoryMap.get l.headers h = some b.header ∧
       MemoryMap.get l.transactions h = some b.transactions ∧
       MemoryMap.get l.signatures h = some b.signature) := by
  obtain ⟨bp, bh, bt, bs⟩ := b
  unfold Ledger.get_block
  cases hp : MemoryMap.get l.previous_hashes h <;>
    cases hh : MemoryMap.get l.headers h <;>
      cases ht : MemoryMap.get l.transactions h <;>
        cases hs : MemoryMap.get l.signatures h <;>
          simp [Block.mk.injEq]

/-- The reachability invariant: everything `add_next_block` preserves about
the shape of a ledger grown from a genesis block `g`.  The `ordered` field
carries the key, timestamp and (conditionally on a positive genesis round)
round monotonicity along the header entries, which are kept in key order. -/
structure Inv (E : BlockHashFn) (g : Block) (l : Ledger) : Prop where
  keysPH : MemoryMap.keys l.previous_hashes = MemoryMap.keys l.headers
  keysTX : MemoryMap.keys l.transactions = MemoryMap.keys l.headers
  keysSG : MemoryMap.keys l.signatures = MemoryMap.keys l.headers
  hne : l.headers ≠ []
  keysLe : ∀ p ∈ l.headers, p.1 ≤ l.current_height
  keysLt0 : l.current_height = 0 → ∀ p ∈ l.headers, p.1 = 0
  tipHash : (l.get_block l.current_height).map (Block.hash E) = some l.current_hash
  tipRound : (MemoryMap.get l.headers l.current_height).map Header.round = some l.current_round
  heights : ∀ p ∈ l.headers, p.2.height = p.1
  ordered : List.Pairwise
    (fun a b : Nat × Header => a.1 < b.1 ∧ a.2.timestamp < b.2.timestamp ∧
      (0 < Block.round g → a.2.round < b.2.round)) l.headers
  tsMax : ∀ p ∈ l.headers, ∀ th, MemoryMap.get l.headers l.current_height = some th →
    p.2.timestamp ≤ th.timestamp
  roundMax : 0 < Block.round g → ∀ p ∈ l.headers,
    ∀ th, MemoryMap.get l.headers l.current_height = some th → p.2.round ≤ th.round
  roundPos : 0 < Block.round g → 0 < l.current_round
  tipMax : MemoryMap.keys_max l.previous_hashes = some l.current_height
  treeInv : (MemoryMap.values l.previous_hashes).drop 1 ++ [l.current_hash] = l.block_tree
  vmIds : l.vm.finalized = ((MemoryMap.values l.transactions).flatten).map Transaction.id
  vmNodup : l.vm.finalized.Nodup

theorem inv_genesis {E : BlockHashFn} {v : Block → VM → Bool} {g : Block} {l0 : Ledger}
    (h : from_genesis E v g = Except.ok l0) : Inv E g l0 := by
  have h2 : add_next_block_inner E v emptyLedger g = Except.ok l0 := h
  rcases add_next_block_inner_ok_iff.mp h2 with ⟨hc, vm, hvm, rfl⟩
  obtain ⟨c1, c2, c3, c4, c5, c6, c7, c8, c9, c10, c11, c12, c13⟩ := hc
  have hgh : Block.height g = 0 := by
    by_contra hne
    rcases c6 (Nat.pos_of_ne_zero hne) with ⟨lb, hlb, _⟩
    have : emptyLedger.latest_block = none := rfl
    rw [this] at hlb
    cases hlb
  have hfin := finalizeList_ok_append hvm
  have hnod := finalizeList_ok_nodup (by simp [emptyLedger]) hvm
  refine ⟨?_, ?_, ?_, ?_, ?_, ?_, ?_, ?_, ?_, ?_, ?_, ?_, ?_, ?_, ?_, ?_, ?_⟩
  · simp [stagedLedger, emptyLedger, hgh, MemoryMap.insert, MemoryMap.keys]
  · simp [stagedLedger, emptyLedger, hgh, MemoryMap.insert, MemoryMap.keys]
  · simp [stagedLedger, emptyLedger, hgh, MemoryMap.insert, MemoryMap.keys]
  · simp [stagedLedger, emptyLedger, hgh, MemoryMap.insert]
  · intro p hp
    simp [stagedLedger, emptyLedger, hgh, MemoryMap.insert] at hp
    simp [stagedLedger, hp, hgh]
  · intro _ p hp
    simp [stagedLedger, emptyLedger, hgh, MemoryMap.insert] at hp
    simp [hp]
  · have hgb : (stagedLedger E emptyLedger g vm).get_block
        (stagedLedger E emptyLedger g vm).current_height = some g := by
      apply get_block_eq_some.mpr
      refine ⟨?_, ?_, ?_, ?_⟩ <;>
        simp [stagedLedger, emptyLedger, MemoryMap.insert, MemoryMap.get]
    rw [hgb]
    rfl
  · simp [stagedLedger, emptyLedger, hgh, MemoryMap.insert, MemoryMap.get, Block.round]
  · intro p hp
    simp [stagedLedger, emptyLedger, hgh, MemoryMap.insert] at hp
    simp [hp, ← hgh, Block.height]
  · simp [stagedLedger, emptyLedger, hgh, MemoryMap.insert]
  · intro p hp th hth
    simp [stagedLedger, emptyLedger, hgh, MemoryMap.insert] at hp
    simp [stagedLedger, emptyLedger, hgh, MemoryMap.insert, MemoryMap.get] at hth
    simp [hp, ← hth]
  · intro _ p hp th hth
    simp [stagedLedger, emptyLedger, hgh, MemoryMap.insert] at hp
    simp [stagedLedger, emptyLedger, hgh, MemoryMap.insert, MemoryMap.get] at hth
    simp [hp, ← hth]
  · intro hg
    simpa [stagedLedger, Block.round] using hg
  · simp [stagedLedger, emptyLedger, hgh, MemoryMap.insert, MemoryMap.keys_max]
  · simp [stagedLedger, emptyLedger, hgh, MemoryMap.insert, MemoryMap.values]
  · simp [stagedLedger, emptyLedger, hgh, MemoryMap.insert, MemoryMap.values, hfin]
  · exact hnod

theorem inv_step {E : BlockHashFn} {v : Block → VM → Bool} {g : Block} {l : Ledger} {b : Block}
    {l2 : Ledger} (hi : Inv E g l) (h : add_next_block_inner E v l b = Except.ok l2) :
    Inv E g l2 := by
  rcases add_next_block_inner_ok_iff.mp h with ⟨hc, vm, hvm, rfl⟩
  obtain ⟨c1, c2, c3, c4, c5, c6, c7, c8, c9, c10, c11, c12, c13⟩ := hc
  have hheight : 0 < l.current_height → l.current_height + 1 = Block.height b := by
    intro hch
    by_contra hne
    exact c3 ⟨hch, hne⟩
  have hbpos : 0 < Block.height b := by
    by_cases hch : 0 < l.current_height
    · have := hheight hch
      omega
    · have hcur0 : l.current_height = 0 := by omega
      by_contra hb0
      have hb0 : Block.height b = 0 := by omega
      rcases List.exists_cons_of_ne_nil hi.hne with ⟨q, t, hq⟩
      have hq0 : q.1 = 0 := hi.keysLt0 hcur0 q (by simp [hq])
      have hmem : (0 : Nat) ∈ MemoryMap.keys l.headers := by
        rw [hq]
        simp [MemoryMap.keys, ← hq0]
      have hck := MemoryMap.contains_key_iff.mpr hmem
      have c4b := c4
      rw [hb0] at c4b
      rw [Ledger.contains_height] at c4b
      rw [c4b] at hck
      cases hck
  have hlt : ∀ p ∈ l.headers, p.1 < Block.height b := by
    intro p hp
    by_cases hch : 0 < l.current_height
    · have h1 := hi.keysLe p hp
      have h2 := hheight hch
      omega
    · have hcur0 : l.current_height = 0 := by omega
      have := hi.keysLt0 hcur0 p hp
      omega
  have hltK : ∀ k ∈ MemoryMap.keys l.headers, k < Block.height b := by
    intro k hk
    rcases List.mem_map.mp hk with ⟨q, hq, rfl⟩
    exact hlt q hq
  have hltPH : ∀ p ∈ l.previous_hashes, p.1 < Block.height b := by
    intro p hp
    exact hltK p.1 (hi.keysPH ▸ List.mem_map.mpr ⟨p, hp, rfl⟩)
  have hltTX : ∀ p ∈ l.transactions, p.1 < Block.height b := by
    intro p hp
    exact hltK p.1 (hi.keysTX ▸ List.mem_map.mpr ⟨p, hp, rfl⟩)
  have hltSG : ∀ p ∈ l.signatures, p.1 < Block.height b := by
    intro p hp
    exact hltK p.1 (hi.keysSG ▸ List.mem_map.mpr ⟨p, hp, rfl⟩)
  have hneqHM : ∀ p ∈ l.headers, p.1 ≠ Block.height b := fun p hp => Nat.ne_of_lt (hlt p hp)
  have hneqPH : ∀ p ∈ l.previous_hashes, p.1 ≠ Block.height b :=
    fun p hp => Nat.ne_of_lt (hltPH p hp)
  have hneqTX : ∀ p ∈ l.transactions, p.1 ≠ Block.height b :=
    fun p hp => Nat.ne_of_lt (hltTX p hp)
  have hneqSG : ∀ p ∈ l.signatures, p.1 ≠ Block.height b :=
    fun p hp => Nat.ne_of_lt (hltSG p hp)
  have hinsPH := @MemoryMap.insert_append Nat l.previous_hashes
    (Block.height b) b.previous_hash hltPH
  have hinsHM := @MemoryMap.insert_append Header l.headers
    (Block.height b) b.header hlt
  have hinsTX := @MemoryMap.insert_append (List Transaction) l.transactions
    (Block.height b) b.transactions hltTX
  have hinsSG := @MemoryMap.insert_append Nat l.signatures
    (Block.height b) b.signature hltSG
  rcases c6 hbpos with ⟨lb, hlb, hts⟩
  have hlb2 : l.get_block l.current_height = some lb := hlb
  have hlbc := get_block_eq_some.mp hlb2
  have hhdr : MemoryMap.get l.headers l.current_height = some lb.header := hlbc.2.1
  have hround : lb.header.round = l.current_round := by
    have htr := hi.tipRound
    rw [hhdr] at htr
    simpa using htr
  have hgetHM : MemoryMap.get (MemoryMap.insert l.headers (Block.height b) b.header)
      (Block.height b) = some b.header := by
    rw [hinsHM]
    exact MemoryMap.get_append_right hneqHM
  refine ⟨?_, ?_, ?_, ?_, ?_, ?_, ?_, ?_, ?_, ?_, ?_, ?_, ?_, ?_, ?_, ?_, ?_⟩
  · have k1 := hi.keysPH
    simp only [MemoryMap.keys] at k1
    simp only [stagedLedger, hinsPH, hinsHM, MemoryMap.keys, List.map_append, k1]
    simp
  · have k1 := hi.keysTX
    simp only [MemoryMap.keys] at k1
    simp only [stagedLedger, hinsTX, hinsHM, MemoryMap.keys, List.map_append, k1]
    simp
  · have k1 := hi.keysSG
    simp only [MemoryMap.keys] at k1
    simp only [stagedLedger, hinsSG, hinsHM, MemoryMap.keys, List.map_append, k1]
    simp
  · simp only [stagedLedger, hinsHM]
    simp
  · intro p hp
    simp only [stagedLedger, hinsHM] at hp
    show p.1 ≤ Block.height b
    rcases List.mem_append.mp hp with hold | hnew
    · exact Nat.le_of_lt (hlt p hold)
    · rcases List.mem_singleton.mp hnew with rfl
      exact Nat.le_refl _
  · intro h0
    exfalso
    have : Block.height b = 0 := h0
    omega
  · have hgb : (stagedLedger E l b vm).get_block (Block.height b) = some b := by
      apply get_block_eq_some.mpr
      refine ⟨?_, ?_, ?_, ?_⟩
      · show MemoryMap.get (MemoryMap.insert l.previous_hashes (Block.height b) b.previous_hash)
            (Block.height b) = some b.previous_hash
        rw [hinsPH]
        exact MemoryMap.get_append_right hneqPH
      · exact hgetHM
      · show MemoryMap.get (MemoryMap.insert l.transactions (Block.height b) b.transactions)
            (Block.height b) = some b.transactions
        rw [hinsTX]
        exact MemoryMap.get_append_right hneqTX
      · show MemoryMap.get (MemoryMap.insert l.signatures (Block.height b) b.signature)
            (Block.height b) = some b.signature
        rw [hinsSG]
        exact MemoryMap.get_append_right hneqSG
    show ((stagedLedger E l b vm).get_block (Block.height b)).map (Block.hash E)
        = some (Block.hash E b)
    rw [hgb]
    rfl
  · show (MemoryMap.get (MemoryMap.insert l.headers (Block.height b) b.header)
        (Block.height b)).map Header.round = some (Block.round b)
    rw [hgetHM]
    rfl
  · intro p hp
    simp only [stagedLedger, hinsHM] at hp
    rcases List.mem_append.mp hp with hold | hnew
    · exact hi.heights p hold
    · rcases List.mem_singleton.mp hnew with rfl
      rfl
  · simp only [stagedLedger, hinsHM]
    apply List.pairwise_append.mpr
    refine ⟨hi.ordered, List.pairwise_singleton _ _, ?_⟩
    intro a ha y hy
    rcases List.mem_singleton.mp hy with rfl
    refine ⟨hlt a ha, ?_, ?_⟩
    · have h1 := hi.tsMax a ha lb.header hhdr
      have h2 : lb.header.timestamp < b.header.timestamp := hts
      exact lt_of_le_of_lt h1 h2
    · intro hg
      have h1 := hi.roundMax hg a ha lb.header hhdr
      have hcr := hi.roundPos hg
      have hbr : l.current_round + 1 = Block.round b := by
        by_contra hne
        exact c5 ⟨hcr, hne⟩
      have hb2 : Block.round b = b.header.round := rfl
      show a.2.round < b.header.round
      omega
  · intro p hp th hth
    have hth2 : MemoryMap.get (MemoryMap.insert l.headers (Block.height b) b.header)
        (Block.height b) = some th := hth
    rw [hgetHM] at hth2
    cases hth2
    simp only [stagedLedger, hinsHM] at hp
    rcases List.mem_append.mp hp with hold | hnew
    · have h1 := hi.tsMax p hold lb.header hhdr
      have h2 : lb.header.timestamp < b.header.timestamp := hts
      exact le_of_lt (lt_of_le_of_lt h1 h2)
    · rcases List.mem_singleton.mp hnew with rfl
      exact le_refl _
  · intro hg p hp th hth
    have hth2 : MemoryMap.get (MemoryMap.insert l.headers (Block.height b) b.header)
        (Block.height b) = some th := hth
    rw [hgetHM] at hth2
    cases hth2
    simp only [stagedLedger, hinsHM] at hp
    have hcr := hi.roundPos hg
    have hbr : l.current_round + 1 = Block.round b := by
      by_contra hne
      exact c5 ⟨hcr, hne⟩
    have hb2 : Block.round b = b.header.round := rfl
    rcases List.mem_append.mp hp with hold | hnew
    · have h1 := hi.roundMax hg p hold lb.header hhdr
      omega
    · rcases List.mem_singleton.mp hnew with rfl
      exact le_refl _
  · intro hg
    have hcr := hi.roundPos hg
    have hbr : l.current_round + 1 = Block.round b := by
      by_contra hne
      exact c5 ⟨hcr, hne⟩
    show 0 < Block.round b
    omega
  · show MemoryMap.keys_max (MemoryMap.insert l.previous_hashes (Block.height b) b.previous_hash)
        = some (Block.height b)
    rw [hinsPH]
    exact MemoryMap.keys_max_append hltPH
  · show (MemoryMap.values (MemoryMap.insert l.previous_hashes (Block.height b) b.previous_hash)).drop 1
        ++ [Block.hash E b] = l.block_tree ++ [Block.hash E b]
    have hpm_ne : l.previous_hashes ≠ [] := by
      intro habs
      have hk := hi.keysPH
      rw [habs] at hk
      have hhm : l.headers = [] := by
        cases hh : l.headers with
        | nil => rfl
        | cons q t =>
            rw [hh] at hk
            simp [MemoryMap.keys] at hk
      exact hi.hne hhm
    have hlen : 1 ≤ (MemoryMap.values l.previous_hashes).length := by
      cases hp : l.previous_hashes with
      | nil => exact absurd hp hpm_ne
      | cons q t => simp [MemoryMap.values]
    have hv : MemoryMap.values (l.previous_hashes ++ [(Block.height b, b.previous_hash)])
        = MemoryMap.values l.previous_hashes ++ [b.previous_hash] := by
      simp [MemoryMap.values]
    rw [hinsPH, hv, List.drop_append_of_le_length hlen]
    have hbp : b.previous_hash = l.current_hash := c1.symm
    rw [hbp, hi.treeInv]
  · show vm.finalized = ((MemoryMap.values (MemoryMap.insert l.transactions (Block.height b)
        b.transactions)).flatten).map Transaction.id
    have hv : MemoryMap.values (l.transactions ++ [(Block.height b, b.transactions)])
        = MemoryMap.values l.transactions ++ [b.transactions] := by
      simp [MemoryMap.values]
    rw [hinsTX, hv, finalizeList_ok_append hvm, hi.vmIds]
    simp
  · exact finalizeList_ok_nodup hi.vmNodup hvm

theorem reachable_inv {E : BlockHashFn} {v : Block → VM → Bool} {g : Block} {l : Ledger}
    (h : Reachable E v g l) : Inv E g l := by
  induction h with
  | genesis l hg => exact inv_genesis hg
  | step l b l2 _ hs ih => exact inv_step ih hs

theorem from_maps_replay_ok {E : BlockHashFn} {pm : MemoryMap Nat} {hm : MemoryMap Header}
    {tm : MemoryMap (List Transaction)} {sm : MemoryMap Nat} {lh : Nat} {tb : Block} {vmr : VM}
    (hgb : Ledger.get_block (replayBase pm hm tm sm) lh = some tb)
    (hfin : finalizeList ⟨[]⟩ (MemoryMap.values tm).flatten = Except.ok vmr)
    (hall : (List.range (Block.height tb + 1)).all
      (fun k => (Ledger.get_block (replayBase pm hm tm sm) k).isSome) = true) :
    from_maps_replay E pm hm tm sm lh = Except.ok
      { current_hash := Block.hash E tb
        current_height := Block.height tb
        current_round := Block.round tb
        block_tree := (MemoryMap.values pm).drop 1 ++ [Block.hash E tb]
        previous_hashes := pm
        headers := hm
        transactions := tm
        signatures := sm
        memory_pool := []
        vm := vmr } := by
  simp only [from_maps_replay]
  rw [hgb]
  simp only [Bind.bind, Except.bind, replayBase, emptyLedger]
  rw [hfin]
  split
  · rename_i err heq
    cases heq
  · rename_i v heq
    cases heq
    split
    · rfl
    · rename_i hcond
      exact absurd (by exact hall) hcond

theorem filterMap_singleton_mem {A B : Type} {f : A → Option B} {xs : List A} {a : B}
    (h : xs.filterMap f = [a]) : ∃ x ∈ xs, f x = some a := by
  induction xs with
  | nil => simp at h
  | cons x t ih =>
      cases hf : f x with
      | none =>
          rw [List.filterMap_cons, hf] at h
          rcases ih h with ⟨y, hy, hfy⟩
          exact ⟨y, List.mem_cons_of_mem _ hy, hfy⟩
      | some b =>
          rw [List.filterMap_cons, hf] at h
          rcases List.cons_eq_cons.mp h with ⟨rfl, _⟩
          exact ⟨x, List.mem_cons_self _ _, hf⟩

theorem position_isSome {A : Type} {p : A → Bool} {xs : List A}
    (h : ∃ x ∈ xs, p x = true) : (position p xs).isSome = true := by
  induction xs with
  | nil => simp at h
  | cons x t ih =>
      by_cases hx : p x
      · simp [position, hx]
      · rcases h with ⟨y, hy, hpy⟩
        rcases List.mem_cons.mp hy with rfl | hyt
        · exact absurd hpy hx
        · have := ih ⟨y, hyt, hpy⟩
          simp [position, hx]
          simpa using this

/-! ## Theorems: the ledger -/

/-- **C1.** `add_next_block` is atomic: whenever it returns an error (from the
`check_next_block` pre-check or from `vm.finalize` on any transaction of the
block), the caller observes the ledger exactly as it was; on success the
caller observes precisely the staged ledger, in which the tip fields, the
tree append, the four map inserts, the VM finalization and the memory-pool
removal are all visible together. -/
theorem add_next_block_atomic (E : BlockHashFn) (v : Block → VM → Bool) (l : Ledger) (b : Block) :
    ((add_next_block E v l b).2.isOk = false → (add_next_block E v l b).1 = l) ∧
    ((add_next_block E v l b).2.isOk = true →
      ∃ vm, finalizeList l.vm b.transactions = Except.ok vm ∧
        (add_next_block E v l b).1 = stagedLedger E l b vm) := by
  unfold add_next_block
  cases hin : add_next_block_inner E v l b with
  | error e =>
      constructor
      · intro _
        rfl
      · intro hok
        simp [Except.isOk, Except.toBool] at hok
  | ok l2 =>
      constructor
      · intro hok
        simp [Except.isOk, Except.toBool] at hok
      · intro _
        rcases add_next_block_inner_ok_iff.mp hin with ⟨_, vm, hvm, rfl⟩
        exact ⟨vm, hvm, rfl⟩

/-- Witness for `add_next_block_atomic`: a rejected block leaves the empty
ledger unchanged, and the accepted genesis block makes all updates visible. -/
theorem add_next_block_atomic_app :
    (add_next_block exF exV emptyLedger exBbad).1 = emptyLedger ∧
    ∃ vm, finalizeList emptyLedger.vm exGenesis.transactions = Except.ok vm ∧
      (add_next_block exF exV emptyLedger exGenesis).1 = stagedLedger exF emptyLedger exGenesis vm :=
  ⟨(add_next_block_atomic exF exV emptyLedger exBbad).1 (by decide),
   (add_next_block_atomic exF exV emptyLedger exGenesis).2 (by decide)⟩

/-- **C2 counterexample.** A ledger reachable by `new()` plus one successful
`add_next_block` (of a block whose height skips from 0 to 2, which
`check_next_block` accepts because the height continuity check is disabled
while the latest height is 0) on which `from_maps` over the dumped maps
fails: its existence safety-check requires a block at every height up to the
tip.  The claimed `from_maps`-built ledger therefore does not exist. -/
theorem replay_equivalence_counterexample :
    Reachable exF exV exGenesis exLgap ∧
    (from_maps exF exGenesis exLgap.previous_hashes exLgap.headers exLgap.transactions
      exLgap.signatures).isOk = false :=
  ⟨Reachable.step exL0 exBgap exLgap (Reachable.genesis exL0 rfl) rfl, by decide⟩

/-- **C2 (amended).** For every ledger reachable from a genesis block by
successful `add_next_block` calls whose committed heights are contiguous
(every height up to the tip is committed — forced for every block except the
first one added after genesis), `from_maps` on the four dumped maps succeeds
and the rebuilt ledger has the same current hash, height and round and the
same block-tree leaves (hence the same state root under every root
function). -/
theorem replay_equivalence_amended (E : BlockHashFn) (v : Block → VM → Bool) (g : Block)
    (l : Ledger) (hr : Reachable E v g l)
    (hcontig : ∀ k, k ≤ l.current_height → MemoryMap.contains_key l.headers k = true) :
    ∃ l2, from_maps E g l.previous_hashes l.headers l.transactions l.signatures = Except.ok l2 ∧
      l2.current_hash = l.current_hash ∧ l2.current_height = l.current_height ∧
      l2.current_round = l.current_round ∧ l2.block_tree = l.block_tree := by
  have hi := reachable_inv hr
  cases hgb : l.get_block l.current_height with
  | none =>
      exfalso
      have hth := hi.tipHash
      rw [hgb] at hth
      cases hth
  | some tb =>
  have htb := get_block_eq_some.mp hgb
  have hhash : Block.hash E tb = l.current_hash := by
    have hth := hi.tipHash
    rw [hgb] at hth
    simpa using hth
  have hmemh := MemoryMap.get_mem htb.2.1
  have hhgt : Block.height tb = l.current_height := hi.heights _ hmemh
  have hrnd : Block.round tb = l.current_round := by
    have htr := hi.tipRound
    rw [htb.2.1] at htr
    simpa using htr
  have hnodup : (((MemoryMap.values l.transactions).flatten).map Transaction.id).Nodup := by
    rw [← hi.vmIds]
    exact hi.vmNodup
  have hfin : finalizeList (⟨[]⟩ : VM) (MemoryMap.values l.transactions).flatten
      = Except.ok ⟨((MemoryMap.values l.transactions).flatten).map Transaction.id⟩ := by
    have hfl := @finalizeList_of_nodup ⟨[]⟩
      ((MemoryMap.values l.transactions).flatten) (by simpa using hnodup)
    simpa using hfl
  have hsame : ∀ k, (replayBase l.previous_hashes l.headers l.transactions
      l.signatures).get_block k = l.get_block k := by
    intro k
    rfl
  have hall : (List.range (Block.height tb + 1)).all (fun k =>
      ((replayBase l.previous_hashes l.headers l.transactions l.signatures).get_block k).isSome)
      = true := by
    apply List.all_eq_true.mpr
    intro k hk
    rw [hsame k]
    have hk2 : k ≤ l.current_height := by
      have := List.mem_range.mp hk
      omega
    have hkm : k ∈ MemoryMap.keys l.headers := MemoryMap.contains_key_iff.mp (hcontig k hk2)
    have h2 : (MemoryMap.get l.headers k).isSome = true := MemoryMap.get_isSome_iff.mpr hkm
    have h1 : (MemoryMap.get l.previous_hashes k).isSome = true := by
      apply MemoryMap.get_isSome_iff.mpr
      rw [hi.keysPH]
      exact hkm
    have h3 : (MemoryMap.get l.transactions k).isSome = true := by
      apply MemoryMap.get_isSome_iff.mpr
      rw [hi.keysTX]
      exact hkm
    have h4 : (MemoryMap.get l.signatures k).isSome = true := by
      apply MemoryMap.get_isSome_iff.mpr
      rw [hi.keysSG]
      exact hkm
    rcases Option.isSome_iff_exists.mp h1 with ⟨p1, hp1⟩
    rcases Option.isSome_iff_exists.mp h2 with ⟨p2, hp2⟩
    rcases Option.isSome_iff_exists.mp h3 with ⟨p3, hp3⟩
    rcases Option.isSome_iff_exists.mp h4 with ⟨p4, hp4⟩
    have hsome : l.get_block k = some ⟨p1, p2, p3, p4⟩ := get_block_eq_some.mpr ⟨hp1, hp2, hp3, hp4⟩
    simp [hsome]
  have hrep := @from_maps_replay_ok E l.previous_hashes l.headers l.transactions l.signatures
    l.current_height tb ⟨((MemoryMap.values l.transactions).flatten).map Transaction.id⟩
    (by rw [hsame]; exact hgb) hfin hall
  have hfm : from_maps E g l.previous_hashes l.headers l.transactions l.signatures
      = from_maps_replay E l.previous_hashes l.headers l.transactions l.signatures
        l.current_height := by
    unfold from_maps
    rw [hi.tipMax]
  refine ⟨_, hfm.trans hrep, hhash, hhgt, hrnd, ?_⟩
  show (MemoryMap.values l.previous_hashes).drop 1 ++ [Block.hash E tb] = l.block_tree
  rw [hhash]
  exact hi.treeInv

/-- Witness for `replay_equivalence_amended` on the two-block contiguous
chain. -/
theorem replay_equivalence_amended_app :
    (∀ k, k ≤ exL1.current_height → MemoryMap.contains_key exL1.headers k = true) ∧
    ∃ l2, from_maps exF exGenesis exL1.previous_hashes exL1.headers exL1.transactions
        exL1.signatures = Except.ok l2 ∧
      l2.current_hash = exL1.current_hash ∧ l2.current_height = exL1.current_height ∧
      l2.current_round = exL1.current_round ∧ l2.block_tree = exL1.block_tree :=
  ⟨by decide,
   replay_equivalence_amended exF exV exGenesis exL1
     (Reachable.step exL0 exB1 exL1 (Reachable.genesis exL0 rfl) rfl) (by decide)⟩

/-- **C6 counterexample.** A reachable two-block ledger in which both the
genesis block and the next block carry round 0: `check_next_block` skips the
round continuity check while the latest round is 0, so rounds need not
strictly increase with height.  (Timestamps 0 and 100 do increase.) -/
theorem monotonicity_counterexample :
    Reachable exF exV exGenesis exL1 ∧
    MemoryMap.get exL1.headers 0 = some (exHeader 0 0 0) ∧
    MemoryMap.get exL1.headers 1 = some (exHeader 0 1 100) ∧
    ¬ (exHeader 0 0 0).round < (exHeader 0 1 100).round :=
  ⟨Reachable.step exL0 exB1 exL1 (Reachable.genesis exL0 rfl) rfl, rfl, rfl, by decide⟩

/-- **C6 (amended).** In every ledger reachable from a genesis block by
successful `add_next_block` calls, timestamps strictly increase with height
across committed blocks; rounds strictly increase with height as well
provided the genesis round is positive (with a zero genesis round the round
continuity check stays disabled and rounds may repeat). -/
theorem monotonicity_amended (E : BlockHashFn) (v : Block → VM → Bool) (g : Block) (l : Ledger)
    (hr : Reachable E v g l) (ka kb : Nat) (hda hdb : Header)
    (hga : MemoryMap.get l.headers ka = some hda) (hgb : MemoryMap.get l.headers kb = some hdb)
    (hlt : ka < kb) :
    hda.timestamp < hdb.timestamp ∧ (0 < Block.round g → hda.round < hdb.round) := by
  have hi := reachable_inv hr
  have hm1 := MemoryMap.get_mem hga
  have hm2 := MemoryMap.get_mem hgb
  have hne : ((ka, hda) : Nat × Header) ≠ (kb, hdb) := by
    intro heq
    have : ka = kb := congrArg Prod.fst heq
    omega
  rcases pairwise_mem_or hi.ordered hm1 hm2 hne with hrr | hrr
  · exact ⟨hrr.2.1, hrr.2.2⟩
  · exfalso
    have : kb < ka := hrr.1
    omega

/-- Witness for `monotonicity_amended` on a chain with positive genesis
round. -/
theorem monotonicity_amended_app :
    MemoryMap.get exL1R.headers 0 = some (exHeader 1 0 0) ∧
    MemoryMap.get exL1R.headers 1 = some (exHeader 2 1 100) ∧
    (exHeader 1 0 0).timestamp < (exHeader 2 1 100).timestamp ∧
    (0 < Block.round exGenesisR → (exHeader 1 0 0).round < (exHeader 2 1 100).round) :=
  ⟨rfl, rfl,
   monotonicity_amended exF exV exGenesisR exL1R
     (Reachable.step exL0R exB1R exL1R (Reachable.genesis exL0R rfl) rfl)
     0 1 (exHeader 1 0 0) (exHeader 2 1 100) rfl rfl (by decide)⟩

/-- **C7 counterexample.** With an empty `previous_hashes` map but a nonempty
`headers` map, `from_maps` still takes the genesis-bootstrap path (the branch
tests only `previous_hashes.keys().max()`): the genesis block is loaded, its
header is inserted, and the tip is set from it — refuting "genesis path iff
all four maps are empty". -/
theorem from_maps_bootstrap_counterexample :
    ([(5, exHeader 7 5 9)] : MemoryMap Header) ≠ [] ∧
    (okOr (from_maps exF exGenesis [] [(5, exHeader 7 5 9)] [] [])).current_height
      = Block.height exGenesis ∧
    MemoryMap.get (okOr (from_maps exF exGenesis [] [(5, exHeader 7 5 9)] [] [])).headers
      (Block.height exGenesis) = some exGenesis.header ∧
    (okOr (from_maps exF exGenesis [] [(5, exHeader 7 5 9)] [] [])).current_hash
      = Block.hash exF exGenesis :=
  ⟨by decide, by decide, by decide, by decide⟩

/-- **C7 (amended).** `from_maps` takes the genesis-bootstrap path (inserting
the genesis block into the four maps and replaying from the genesis height)
iff the `previous_hashes` map alone is empty; otherwise it replays from the
maximum key of `previous_hashes`.  The other three maps play no part in the
branch. -/
theorem from_maps_bootstrap_amended (E : BlockHashFn) (g : Block) (pm : MemoryMap Nat)
    (hm : MemoryMap Header) (tm : MemoryMap (List Transaction)) (sm : MemoryMap Nat) :
    (pm = [] → from_maps E g pm hm tm sm =
      from_maps_replay E (MemoryMap.insert pm (Block.height g) g.previous_hash)
        (MemoryMap.insert hm (Block.height g) g.header)
        (MemoryMap.insert tm (Block.height g) g.transactions)
        (MemoryMap.insert sm (Block.height g) g.signature) (Block.height g)) ∧
    (pm ≠ [] → ∃ k, MemoryMap.keys_max pm = some k ∧
      from_maps E g pm hm tm sm = from_maps_replay E pm hm tm sm k) := by
  constructor
  · rintro rfl
    rfl
  · intro hne
    cases hpm : pm with
    | nil => exact absurd hpm hne
    | cons p t =>
        cases hkm : MemoryMap.keys_max (p :: t) with
        | none =>
            exfalso
            cases hk2 : MemoryMap.keys_max t <;> simp [MemoryMap.keys_max, hk2] at hkm
        | some k =>
            refine ⟨k, rfl, ?_⟩
            unfold from_maps
            rw [hkm]

/-- Witness for `from_maps_bootstrap_amended`: the empty-map branch and the
nonempty branch on a dumped two-block chain. -/
theorem from_maps_bootstrap_amended_app :
    (from_maps exF exGenesis [] [] [] [] = from_maps_replay exF
      (MemoryMap.insert [] (Block.height exGenesis) exGenesis.previous_hash)
      (MemoryMap.insert [] (Block.height exGenesis) exGenesis.header)
      (MemoryMap.insert [] (Block.height exGenesis) exGenesis.transactions)
      (MemoryMap.insert [] (Block.height exGenesis) exGenesis.signature)
      (Block.height exGenesis)) ∧
    ∃ k, MemoryMap.keys_max exL1.previous_hashes = some k ∧
      from_maps exF exGenesis exL1.previous_hashes exL1.headers exL1.transactions exL1.signatures
        = from_maps_replay exF exL1.previous_hashes exL1.headers exL1.transactions
          exL1.signatures k :=
  ⟨(from_maps_bootstrap_amended exF exGenesis [] [] [] []).1 rfl,
   (from_maps_bootstrap_amended exF exGenesis exL1.previous_hashes exL1.headers
     exL1.transactions exL1.signatures).2 (by decide)⟩

/-- **C4.** `add_to_memory_pool` fails iff the transaction id is already
pooled or one of its transition public keys, serial numbers, commitments or
nonces is already committed; on success the transaction is appended to the
pool keyed by its id and every other ledger component is unchanged. -/
theorem add_to_memory_pool_spec (l : Ledger) (t : Transaction) :
    ((add_to_memory_pool l t).isOk = false ↔
      (l.memory_pool.any (fun p => p.1 == t.id) = true ∨
       (∃ x ∈ Transaction.transition_public_keys t, l.contains_transition_public_key x = true) ∨
       (∃ x ∈ Transaction.serial_numbers t, l.contains_serial_number x = true) ∨
       (∃ x ∈ Transaction.commitments t, l.contains_commitment x = true) ∨
       (∃ x ∈ Transaction.nonces t, l.contains_nonce x = true))) ∧
    (∀ l2, add_to_memory_pool l t = Except.ok l2 →
      l2 = { l with memory_pool := l.memory_pool ++ [(t.id, t)] }) := by
  have hokiff : ∀ l2, add_to_memory_pool l t = Except.ok l2 ↔
      ((l.memory_pool.any (fun p => p.1 == t.id) = false) ∧
       (∀ x ∈ Transaction.transition_public_keys t, l.contains_transition_public_key x = false) ∧
       (∀ x ∈ Transaction.serial_numbers t, l.contains_serial_number x = false) ∧
       (∀ x ∈ Transaction.commitments t, l.contains_commitment x = false) ∧
       (∀ x ∈ Transaction.nonces t, l.contains_nonce x = false) ∧
       l2 = { l with memory_pool := l.memory_pool ++ [(t.id, t)] }) := by
    intro l2
    simp only [add_to_memory_pool, seq_ok_iff, guardE_ok, ensureNone_ok, Except.ok.injEq]
    constructor
    · rintro ⟨h1, h2, h3, h4, h5, h6⟩
      exact ⟨h1, h2, h3, h4, h5, h6.symm⟩
    · rintro ⟨h1, h2, h3, h4, h5, h6⟩
      exact ⟨h1, h2, h3, h4, h5, h6.symm⟩
  constructor
  · constructor
    · intro hfalse
      by_contra hnone
      push_neg at hnone
      simp only [Bool.not_eq_true] at hnone
      rcases hnone with ⟨h1, h2, h3, h4, h5⟩
      have hok := (hokiff { l with memory_pool := l.memory_pool ++ [(t.id, t)] }).mpr
        ⟨h1, h2, h3, h4, h5, rfl⟩
      rw [hok] at hfalse
      simp [Except.isOk, Except.toBool] at hfalse
    · intro hdisj
      cases hadd : add_to_memory_pool l t with
      | error e => rfl
      | ok l2 =>
          exfalso
          rcases (hokiff l2).mp hadd with ⟨h1, h2, h3, h4, h5, _⟩
          rcases hdisj with hd | hd | hd | hd | hd
          · rw [h1] at hd
            cases hd
          · rcases hd with ⟨x, hx, hcx⟩
            rw [h2 x hx] at hcx
            cases hcx
          · rcases hd with ⟨x, hx, hcx⟩
            rw [h3 x hx] at hcx
            cases hcx
          · rcases hd with ⟨x, hx, hcx⟩
            rw [h4 x hx] at hcx
            cases hcx
          · rcases hd with ⟨x, hx, hcx⟩
            rw [h5 x hx] at hcx
            cases hcx
  · intro l2 hadd
    exact ((hokiff l2).mp hadd).2.2.2.2.2

/-- Witness for `add_to_memory_pool_spec`: a duplicate pooled id is rejected,
and a fresh transaction is appended to the pool of the empty ledger. -/
theorem add_to_memory_pool_spec_app :
    (add_to_memory_pool exLdup exTx).isOk = false ∧
    okOr (add_to_memory_pool emptyLedger exTx)
      = { emptyLedger with memory_pool := emptyLedger.memory_pool ++ [(exTx.id, exTx)] } :=
  ⟨(add_to_memory_pool_spec exLdup exTx).1.mpr (Or.inl (by decide)),
   (add_to_memory_pool_spec emptyLedger exTx).2
     (okOr (add_to_memory_pool emptyLedger exTx)) rfl⟩

/-- **C5.** `to_state_path` errors whenever any of its three uniqueness
searches yields a count different from one: the committed transactions whose
commitments contain `c`, the committed heights whose transaction-id list
contains the found transaction id, and the transitions of the found
transaction whose commitments contain `c`.  In particular an uncommitted
commitment (zero matches in the first search) is an error. -/
theorem to_state_path_uniqueness (l : Ledger) (c : Nat) :
    ((state_path_tx_matches l c).length ≠ 1 → (to_state_path l c).isOk = false) ∧
    (∀ t, state_path_tx_matches l c = [t] →
      ((state_path_heights l t).length ≠ 1 → (to_state_path l c).isOk = false) ∧
      (∀ hgt, state_path_heights l t = [hgt] →
        (state_path_transitions t c).length ≠ 1 → (to_state_path l c).isOk = false)) := by
  refine ⟨?_, ?_⟩
  · intro hlen
    cases hm : state_path_tx_matches l c with
    | nil => simp [to_state_path, hm, Bind.bind, Except.bind, Except.isOk, Except.toBool]
    | cons t rest =>
        cases rest with
        | nil =>
            exfalso
            apply hlen
            rw [hm]
            rfl
        | cons t2 rest2 =>
            simp [to_state_path, hm, Bind.bind, Except.bind, Except.isOk, Except.toBool]
  · intro t hm
    constructor
    · intro hlen
      cases hh : state_path_heights l t with
      | nil =>
          simp [to_state_path, hm, hh, Bind.bind, Except.bind, Except.isOk, Except.toBool]
      | cons a rest =>
          cases rest with
          | nil =>
              exfalso
              apply hlen
              rw [hh]
              rfl
          | cons b rest2 =>
              simp [to_state_path, hm, hh, Bind.bind, Except.bind, Except.isOk, Except.toBool]
    · intro hgt hh hlen
      cases hhd : MemoryMap.get l.headers hgt with
      | none =>
          simp [to_state_path, hm, hh, hhd, Bind.bind, Except.bind, Except.isOk, Except.toBool]
      | some hd =>
          cases ht : state_path_transitions t c with
          | nil =>
              simp [to_state_path, hm, hh, hhd, ht, Bind.bind, Except.bind, Except.isOk,
                Except.toBool]
          | cons a rest =>
              cases rest with
              | nil =>
                  exfalso
                  apply hlen
                  rw [ht]
                  rfl
              | cons b rest2 =>
                  simp [to_state_path, hm, hh, hhd, ht, Bind.bind, Except.bind, Except.isOk,
                    Except.toBool]

/-- Witness for `to_state_path_uniqueness`: an uncommitted commitment on the
empty ledger errors. -/
theorem to_state_path_uniqueness_app :
    (state_path_tx_matches emptyLedger 0).length ≠ 1 ∧
    (to_state_path emptyLedger 0).isOk = false :=
  ⟨by decide, (to_state_path_uniqueness emptyLedger 0).1 (by decide)⟩

/-- **C10.** The `.unwrap()` on the transaction-index search of
`to_state_path` never panics: once the two preceding uniqueness searches have
singled out a transaction and a block height whose transaction-id list
contains its id, the position lookup by transaction id in the `Transactions`
stored at that height always finds a match (keys of the height-keyed map are
unique, as the map structure guarantees). -/
theorem state_path_unwrap_safe (l : Ledger) (c : Nat)
    (hnd : (MemoryMap.keys l.transactions).Nodup) :
    to_state_path l c ≠ Except.error unwrapPanicMsg := by
  cases hm : state_path_tx_matches l c with
  | nil =>
      simp [to_state_path, hm, Bind.bind, Except.bind, unwrapPanicMsg]
  | cons t rest =>
  cases rest with
  | cons t2 rest2 =>
      simp [to_state_path, hm, Bind.bind, Except.bind, unwrapPanicMsg]
  | nil =>
  cases hh : state_path_heights l t with
  | nil =>
      simp [to_state_path, hm, hh, Bind.bind, Except.bind, unwrapPanicMsg]
  | cons a rest =>
  cases rest with
  | cons b rest2 =>
      simp [to_state_path, hm, hh, Bind.bind, Except.bind, unwrapPanicMsg]
  | nil =>
  rcases filterMap_singleton_mem hh with ⟨p, hpmem, hppred⟩
  have hcond : ((p.2.map Transaction.id).contains t.id = true) ∧ p.1 = a := by
    by_cases hc : (p.2.map Transaction.id).contains t.id
    · refine ⟨hc, ?_⟩
      rw [if_pos hc] at hppred
      exact Option.some.inj hppred
    · rw [if_neg hc] at hppred
      cases hppred
  have hget : MemoryMap.get l.transactions a = some p.2 := by
    apply MemoryMap.get_of_mem_nodup hnd
    have : p = (a, p.2) := by
      rw [← hcond.2]
    rw [← this]
    exact hpmem
  have hmemid : t.id ∈ p.2.map Transaction.id := by
    simpa using hcond.1
  rcases List.mem_map.mp hmemid with ⟨tx, htx, hid⟩
  have hfind : (position (fun q => q.id == t.id) p.2).isSome = true := by
    apply position_isSome
    exact ⟨tx, htx, by simp [hid]⟩
  cases hhd : MemoryMap.get l.headers a with
  | none =>
      simp [to_state_path, hm, hh, hhd, Bind.bind, Except.bind, unwrapPanicMsg]
  | some hd =>
  cases ht : state_path_transitions t c with
  | nil =>
      simp [to_state_path, hm, hh, hhd, ht, Bind.bind, Except.bind, unwrapPanicMsg]
  | cons tr rest =>
  cases rest with
  | cons tr2 rest2 =>
      simp [to_state_path, hm, hh, hhd, ht, Bind.bind, Except.bind, unwrapPanicMsg]
  | nil =>
      rcases Option.isSome_iff_exists.mp hfind with ⟨i, hpos⟩
      simp [to_state_path, hm, hh, hhd, ht, hget, hpos, Bind.bind, Except.bind]

/-- Witness for `state_path_unwrap_safe` on the empty ledger. -/
theorem state_path_unwrap_safe_app :
    (MemoryMap.keys emptyLedger.transactions).Nodup ∧
    to_state_path emptyLedger 0 ≠ Except.error unwrapPanicMsg :=
  ⟨by decide, state_path_unwrap_safe emptyLedger 0 (by decide)⟩
